import Mathlib

/-!
Shallow embedding of the settlement engine of `src/EasySplit.py`.

The engine is `compute_result` (lines 53-137): it aggregates expense entries
into per-currency debt matrices, normalizes them to the base currency with a
rate table, nets reciprocal debts pairwise over the sorted participant list,
and renders the result.  Amounts are modelled as rationals; the global rate
table fetched by `get_exchange_rates` is passed in as an explicit association
list, matching the `conversion_rates` mapping the netting code consumes.
-/

namespace EasySplit

/-- An expense entry as appended to the global `entries` list by `on_submit`
(lines 347-354 of the source): payer, currency code, amount, and the list of
sharers.  Only the fields the computation reads are kept. -/
structure Entry where
  payer : String
  currency : String
  amount : ℚ
  share : List String
deriving DecidableEq

/-- Per-sharer share of an entry: `share_amt = amount / n` (line 75).  Division
by zero cannot be reached: the aggregation loop skips entries with `n == 0`. -/
def shareAmt (e : Entry) : ℚ := e.amount / e.share.length

/-- The sequence of `transfer[currency][person][payer] += share_amt` updates
made by the aggregation loop (lines 67-79), one tuple
`(currency, debtor, creditor, amount)` per update.  An entry with an empty
share list is skipped (`if n == 0: continue`, lines 72-74), and a sharer equal
to the payer makes no update (`if person != payer`, line 78). -/
def aggWrites (entries : List Entry) : List (String × String × String × ℚ) :=
  entries.flatMap fun e =>
    if e.share.length = 0 then []
    else (e.share.filter fun p => p != e.payer).map fun p => (e.currency, p, e.payer, shareAmt e)

/-- Value of the per-currency debt matrix `transfer[curr][debtor][creditor]`
after the aggregation loop: the sum of the matching updates (the nested
`defaultdict(float)` reads an unwritten key as 0). -/
def transfer (entries : List Entry) (curr debtor creditor : String) : ℚ :=
  (((aggWrites entries).filter fun w =>
      w.1 == curr && w.2.1 == debtor && w.2.2.1 == creditor).map fun w => w.2.2.2).sum

/-- The currency keys of the aggregated `transfer` mapping, each once (the
normalization loop of line 85 visits each per-currency matrix once). -/
def currencies (entries : List Entry) : List String :=
  ((aggWrites entries).map fun w => w.1).dedup

/-- Rate factor applied during normalization: `conversion_rates.get(curr, 1.0)`
(line 86) — the rate-table entry when present, else the silent default 1. -/
def rateLookup (rates : List (String × ℚ)) (curr : String) : ℚ :=
  ((rates.find? fun r => r.1 == curr).map fun r => r.2).getD 1

/-- The unified base-currency matrix `net_transfer[debtor][creditor]`
(lines 84-89): every entry of every per-currency matrix is multiplied by that
currency's rate factor and accumulated at the same (debtor, creditor) key. -/
def netTransfer (entries : List Entry) (rates : List (String × ℚ))
    (debtor creditor : String) : ℚ :=
  ((currencies entries).map fun curr =>
    transfer entries curr debtor creditor * rateLookup rates curr).sum

/-- The participant set used for netting, `all_people`: the registered
participants united with every member of every share list (lines 66 and 77).
Payers are not added by the loop. -/
def allPeople (participants : List String) (entries : List Entry) : List String :=
  (participants ++ entries.flatMap fun e => e.share).dedup

/-- `people_list = sorted(all_people)` (line 81): the participant set in
lexicographic order. -/
def peopleList (participants : List String) (entries : List Entry) : List String :=
  List.insertionSort (fun a b => a ≤ b) (allPeople participants entries)

/-- The epsilon threshold `1e-9` of the netting loop (line 100). -/
def eps : ℚ := 1 / 1000000000

/-- Pairwise net amount
`net_transfer[debtor].get(creditor, 0.0) - net_transfer[creditor].get(debtor, 0.0)`
(line 99). -/
def netAmt (entries : List Entry) (rates : List (String × ℚ))
    (debtor creditor : String) : ℚ :=
  netTransfer entries rates debtor creditor - netTransfer entries rates creditor debtor

/-- The transfer plan `transactions` (lines 93-104): the netting loop visits
every ordered pair of people from the sorted list, skips the diagonal, and
appends `(debtor, creditor, net_amt)` exactly when `net_amt > 1e-9`. -/
def transactions (participants : List String) (entries : List Entry)
    (rates : List (String × ℚ)) : List (String × String × ℚ) :=
  (peopleList participants entries).flatMap fun debtor =>
    (peopleList participants entries).filterMap fun creditor =>
      if debtor = creditor then none
      else if eps < netAmt entries rates debtor creditor then
        some (debtor, creditor, netAmt entries rates debtor creditor)
      else none

/-- The cells the same loop writes into `reduced_matrix`, in write order: one
cell per ordered pair of distinct people, holding the net amount when it
exceeds the threshold and 0 otherwise (lines 100-104). -/
def reducedCells (participants : List String) (entries : List Entry)
    (rates : List (String × ℚ)) : List ((String × String) × ℚ) :=
  (peopleList participants entries).flatMap fun debtor =>
    (peopleList participants entries).filterMap fun creditor =>
      if debtor = creditor then none
      else if eps < netAmt entries rates debtor creditor then
        some ((debtor, creditor), netAmt entries rates debtor creditor)
      else some ((debtor, creditor), 0)

/-- Read of `reduced_matrix[debtor][creditor]` after the netting loop (a
`defaultdict(float)`: an unwritten cell reads as 0). -/
def reducedMatrix (participants : List String) (entries : List Entry)
    (rates : List (String × ℚ)) (debtor creditor : String) : ℚ :=
  (((reducedCells participants entries rates).find? fun cell =>
      cell.1.1 == debtor && cell.1.2 == creditor).map fun cell => cell.2).getD 0

/-- Sum of one debtor's row of written cells, `sum(v.values())` of line 135. -/
def rowSum (cells : List ((String × String) × ℚ)) (debtor : String) : ℚ :=
  ((cells.filter fun cell => cell.1.1 == debtor).map fun cell => cell.2).sum

/-- The guard `any(sum(v.values()) > 1e-9 for v in reduced_matrix.values())` of
line 135, over the rows actually written into `reduced_matrix`. -/
def anyPosRow (participants : List String) (entries : List Entry)
    (rates : List (String × ℚ)) : Bool :=
  (((reducedCells participants entries rates).map fun cell => cell.1.1).dedup).any
    fun debtor => decide (eps < rowSum (reducedCells participants entries rates) debtor)

/-- Shape of the HTML `compute_result` returns: the full report with a
transfer list, the report with the "already settled" message (transfer list
empty), or the final "no valid data" replacement of lines 134-136. -/
inductive ResultStatus
  | noData
  | alreadySettled
  | report
deriving DecidableEq

/-- Which of the three result shapes `compute_result` returns (lines 124-137):
the whole page is replaced by the no-data message when there are no
transactions and no row of `reduced_matrix` sums above the threshold. -/
def resultStatus (participants : List String) (entries : List Entry)
    (rates : List (String × ℚ)) : ResultStatus :=
  if transactions participants entries rates = [] ∧
      anyPosRow participants entries rates = false then
    ResultStatus.noData
  else if transactions participants entries rates = [] then ResultStatus.alreadySettled
  else ResultStatus.report

/-- A row of the entry table as `on_submit` reads it (lines 332-346):
`amountParse` is the outcome of `float(row[4])` — `none` when the conversion
raises and the row is skipped by `continue` (lines 339-342). -/
structure RawRow where
  payer : String
  currency : String
  amountParse : Option ℚ
  share : List String
deriving DecidableEq

/-- The `entries` list `on_submit` builds (lines 332-355): one entry per row
whose amount parses; no other validation of the amount is performed. -/
def submitEntries (rows : List RawRow) : List Entry :=
  rows.filterMap fun r =>
    r.amountParse.map fun a =>
      { payer := r.payer, currency := r.currency, amount := a, share := r.share }

/-- Amount the spec's aggregation algorithm adds to `matrix[curr][debtor][creditor]`
for a single entry: `share = amount / n` once for each occurrence of the
debtor in the share list, provided the debtor is not the payer, the currency
matches and the creditor is the payer.  Stated from the spec's words to be
compared with `transfer`. -/
def entryAdds (e : Entry) (curr debtor creditor : String) : ℚ :=
  if curr = e.currency ∧ creditor = e.payer ∧ debtor ≠ e.payer then
    (e.share.count debtor : ℚ) * shareAmt e
  else 0

/-- Normalization re-stated at the granularity of single aggregation updates:
each update's amount multiplied by its own currency's rate factor, summed over
the matching (debtor, creditor) key.  Stated from the spec's words ("multiply
every entry by that currency's rate factor and accumulate") to be compared
with `netTransfer`. -/
def netViaWrites (entries : List Entry) (rates : List (String × ℚ))
    (debtor creditor : String) : ℚ :=
  (((aggWrites entries).filter fun w => w.2.1 == debtor && w.2.2.1 == creditor).map
    fun w => w.2.2.2 * rateLookup rates w.1).sum

/-! ### Supporting lemmas -/

lemma sum_map_zero {α : Type} (l : List α) : (l.map fun _ => (0 : ℚ)).sum = 0 := by
  induction l with
  | nil => rfl
  | cons x xs ih => simp [ih]

lemma sum_map_add {α : Type} (l : List α) (f g : α → ℚ) :
    (l.map fun x => f x + g x).sum = (l.map f).sum + (l.map g).sum := by
  induction l with
  | nil => simp
  | cons x xs ih =>
    simp only [List.map_cons, List.sum_cons, ih]
    ring

lemma sum_map_ite_const {α : Type} [DecidableEq α] (l : List α) (x : α) (δ : ℚ)
    (hx : x ∈ l) (hnd : l.Nodup) :
    (l.map fun y => if y = x then δ else 0).sum = δ := by
  induction l with
  | nil => cases hx
  | cons a as ih =>
    rcases List.mem_cons.mp hx with h | h
    · subst h
      have hnotin : x ∉ as := (List.nodup_cons.mp hnd).1
      have hz : (as.map fun y => if y = x then δ else 0) = as.map fun _ => (0 : ℚ) :=
        List.map_congr_left fun y hy => if_neg (by rintro rfl; exact hnotin hy)
      simp [hz, sum_map_zero]
    · have hax : a ≠ x := fun hax => (List.nodup_cons.mp hnd).1 (hax ▸ h)
      simp [if_neg hax, ih h (List.nodup_cons.mp hnd).2]

lemma mem_peopleList {participants : List String} {entries : List Entry} {q : String} :
    q ∈ peopleList participants entries ↔
      q ∈ participants ∨ ∃ e ∈ entries, q ∈ e.share := by
  unfold peopleList allPeople
  rw [(List.perm_insertionSort _ _).mem_iff, List.mem_dedup, List.mem_append, List.mem_flatMap]

lemma nodup_peopleList (participants : List String) (entries : List Entry) :
    (peopleList participants entries).Nodup :=
  ((List.perm_insertionSort _ _).nodup_iff).mpr (List.nodup_dedup _)

lemma mem_aggWrites {entries : List Entry} {w : String × String × String × ℚ} :
    w ∈ aggWrites entries ↔
      ∃ e ∈ entries, ∃ p ∈ e.share, p ≠ e.payer ∧ w = (e.currency, p, e.payer, shareAmt e) := by
  unfold aggWrites
  rw [List.mem_flatMap]
  constructor
  · rintro ⟨e, he, hw⟩
    by_cases hn : e.share.length = 0
    · rw [if_pos hn] at hw
      cases hw
    · rw [if_neg hn, List.mem_map] at hw
      obtain ⟨p, hp, rfl⟩ := hw
      obtain ⟨hps, hpb⟩ := List.mem_filter.mp hp
      exact ⟨e, he, p, hps, bne_iff_ne.mp hpb, rfl⟩
  · rintro ⟨e, he, p, hp, hpp, rfl⟩
    refine ⟨e, he, ?_⟩
    have hn : e.share.length ≠ 0 :=
      fun h => by simp [List.length_eq_zero.mp h] at hp
    rw [if_neg hn, List.mem_map]
    exact ⟨p, List.mem_filter.mpr ⟨hp, bne_iff_ne.mpr hpp⟩, rfl⟩

lemma aggWrites_no_self {entries : List Entry} :
    ∀ w ∈ aggWrites entries, w.2.1 ≠ w.2.2.1 := by
  intro w hw
  obtain ⟨e, _, p, _, hpp, rfl⟩ := mem_aggWrites.mp hw
  exact hpp

lemma mem_transactions {participants : List String} {entries : List Entry}
    {rates : List (String × ℚ)} {d c : String} {a : ℚ} :
    (d, c, a) ∈ transactions participants entries rates ↔
      d ∈ peopleList participants entries ∧ c ∈ peopleList participants entries ∧
        d ≠ c ∧ eps < netAmt entries rates d c ∧ a = netAmt entries rates d c := by
  unfold transactions
  rw [List.mem_flatMap]
  constructor
  · rintro ⟨d', hd', hmem⟩
    rw [List.mem_filterMap] at hmem
    obtain ⟨c', hc', hf⟩ := hmem
    by_cases h1 : d' = c'
    · rw [if_pos h1] at hf
      cases hf
    · rw [if_neg h1] at hf
      by_cases h2 : eps < netAmt entries rates d' c'
      · rw [if_pos h2] at hf
        simp only [Option.some.injEq, Prod.mk.injEq] at hf
        obtain ⟨rfl, rfl, rfl⟩ := hf
        exact ⟨hd', hc', h1, h2, rfl⟩
      · rw [if_neg h2] at hf
        cases hf
  · rintro ⟨hd, hc, hne, hlt, rfl⟩
    refine ⟨d, hd, ?_⟩
    rw [List.mem_filterMap]
    exact ⟨c, hc, by rw [if_neg hne, if_pos hlt]⟩

lemma mem_reducedCells {participants : List String} {entries : List Entry}
    {rates : List (String × ℚ)} {d c : String} {v : ℚ} :
    ((d, c), v) ∈ reducedCells participants entries rates ↔
      d ∈ peopleList participants entries ∧ c ∈ peopleList participants entries ∧
        d ≠ c ∧ v = (if eps < netAmt entries rates d c then netAmt entries rates d c else 0) := by
  unfold reducedCells
  rw [List.mem_flatMap]
  constructor
  · rintro ⟨d', hd', hmem⟩
    rw [List.mem_filterMap] at hmem
    obtain ⟨c', hc', hf⟩ := hmem
    by_cases h1 : d' = c'
    · rw [if_pos h1] at hf
      cases hf
    · rw [if_neg h1] at hf
      by_cases h2 : eps < netAmt entries rates d' c'
      · rw [if_pos h2] at hf
        simp only [Option.some.injEq, Prod.mk.injEq] at hf
        obtain ⟨⟨rfl, rfl⟩, rfl⟩ := hf
        exact ⟨hd', hc', h1, by rw [if_pos h2]⟩
      · rw [if_neg h2] at hf
        simp only [Option.some.injEq, Prod.mk.injEq] at hf
        obtain ⟨⟨rfl, rfl⟩, rfl⟩ := hf
        exact ⟨hd', hc', h1, by rw [if_neg h2]⟩
  · rintro ⟨hd, hc, hne, rfl⟩
    refine ⟨d, hd, ?_⟩
    rw [List.mem_filterMap]
    refine ⟨c, hc, ?_⟩
    rw [if_neg hne]
    by_cases h2 : eps < netAmt entries rates d c
    · rw [if_pos h2, if_pos h2]
    · rw [if_neg h2, if_neg h2]

lemma find?_block {entries : List Entry} {rates : List (String × ℚ)} {d c : String}
    (l : List String) (hc : c ∈ l) (hne : d ≠ c) :
    (l.filterMap fun creditor =>
      if d = creditor then none
      else if eps < netAmt entries rates d creditor then
        some ((d, creditor), netAmt entries rates d creditor)
      else some ((d, creditor), 0)).find?
        (fun cell => cell.1.1 == d && cell.1.2 == c) =
      some ((d, c), if eps < netAmt entries rates d c then netAmt entries rates d c else 0) := by
  induction l with
  | nil => cases hc
  | cons x xs ih =>
    by_cases hdx : d = x
    · have hstep : ((x :: xs).filterMap fun creditor =>
          if d = creditor then none
          else if eps < netAmt entries rates d creditor then
            some ((d, creditor), netAmt entries rates d creditor)
          else some ((d, creditor), 0)) =
          xs.filterMap fun creditor =>
            if d = creditor then none
            else if eps < netAmt entries rates d creditor then
              some ((d, creditor), netAmt entries rates d creditor)
            else some ((d, creditor), 0) := by
        simp only [List.filterMap_cons, if_pos hdx]
      rw [hstep]
      have hcx : c ∈ xs := by
        rcases List.mem_cons.mp hc with h | h
        · exact absurd (hdx.trans h.symm) hne
        · exact h
      exact ih hcx
    · have hstep : ((x :: xs).filterMap fun creditor =>
          if d = creditor then none
          else if eps < netAmt entries rates d creditor then
            some ((d, creditor), netAmt entries rates d creditor)
          else some ((d, creditor), 0)) =
          ((d, x), if eps < netAmt entries rates d x then netAmt entries rates d x else 0) ::
            xs.filterMap fun creditor =>
              if d = creditor then none
              else if eps < netAmt entries rates d creditor then
                some ((d, creditor), netAmt entries rates d creditor)
              else some ((d, creditor), 0) := by
        by_cases h2 : eps < netAmt entries rates d x
        · simp only [List.filterMap_cons, if_neg hdx, if_pos h2]
        · simp only [List.filterMap_cons, if_neg hdx, if_neg h2]
      rw [hstep]
      by_cases hxc : x = c
      · subst hxc
        exact List.find?_cons_of_pos _ (by simp)
      · rw [List.find?_cons_of_neg _ (by simp [hxc])]
        have hcx : c ∈ xs := by
          rcases List.mem_cons.mp hc with h | h
          · exact absurd h.symm hxc
          · exact h
        exact ih hcx

lemma find?_reducedCells {participants : List String} {entries : List Entry}
    {rates : List (String × ℚ)} {d c : String}
    (hd : d ∈ peopleList participants entries) (hc : c ∈ peopleList participants entries)
    (hne : d ≠ c) :
    (reducedCells participants entries rates).find?
        (fun cell => cell.1.1 == d && cell.1.2 == c) =
      some ((d, c), if eps < netAmt entries rates d c then netAmt entries rates d c else 0) := by
  unfold reducedCells
  have hmain : ∀ outer : List String, d ∈ outer →
      ((outer.flatMap fun debtor =>
        (peopleList participants entries).filterMap fun creditor =>
          if debtor = creditor then none
          else if eps < netAmt entries rates debtor creditor then
            some ((debtor, creditor), netAmt entries rates debtor creditor)
          else some ((debtor, creditor), 0)).find?
            (fun cell => cell.1.1 == d && cell.1.2 == c)) =
        some ((d, c), if eps < netAmt entries rates d c then netAmt entries rates d c else 0) := by
    intro outer
    induction outer with
    | nil => intro h; cases h
    | cons x xs ih =>
      intro hdo
      rw [List.flatMap_cons, List.find?_append]
      by_cases hxd : x = d
      · subst hxd
        rw [find?_block _ hc hne]
        rfl
      · have hnone : ((peopleList participants entries).filterMap fun creditor =>
            if x = creditor then none
            else if eps < netAmt entries rates x creditor then
              some ((x, creditor), netAmt entries rates x creditor)
            else some ((x, creditor), 0)).find?
              (fun cell => cell.1.1 == d && cell.1.2 == c) = none := by
          rw [List.find?_eq_none]
          intro cell hcell
          rw [List.mem_filterMap] at hcell
          obtain ⟨c', hc', hf⟩ := hcell
          by_cases h1 : x = c'
          · rw [if_pos h1] at hf
            cases hf
          · rw [if_neg h1] at hf
            have hfst : cell.1.1 = x := by
              by_cases h2 : eps < netAmt entries rates x c'
              · rw [if_pos h2] at hf
                cases hf
                rfl
              · rw [if_neg h2] at hf
                cases hf
                rfl
            simp [hfst, hxd]
        rw [hnone]
        have hdxs : d ∈ xs := by
          rcases List.mem_cons.mp hdo with h | h
          · exact absurd h.symm hxd
          · exact h
        rw [Option.none_or]
        exact ih hdxs
  exact hmain _ hd

lemma reducedMatrix_eq {participants : List String} {entries : List Entry}
    {rates : List (String × ℚ)} {d c : String}
    (hd : d ∈ peopleList participants entries) (hc : c ∈ peopleList participants entries)
    (hne : d ≠ c) :
    reducedMatrix participants entries rates d c =
      if eps < netAmt entries rates d c then netAmt entries rates d c else 0 := by
  unfold reducedMatrix
  rw [find?_reducedCells hd hc hne]
  rfl

lemma sum_map_add_ite (cs : List String) (g : String → ℚ) (x : String) (δ : ℚ)
    (hx : x ∈ cs) (hnd : cs.Nodup) :
    (cs.map fun y => g y + if y = x then δ else 0).sum = (cs.map g).sum + δ := by
  induction cs with
  | nil => cases hx
  | cons a as ih =>
    rcases List.mem_cons.mp hx with h | h
    · subst h
      have hnotin : x ∉ as := (List.nodup_cons.mp hnd).1
      have hz : (as.map fun y => g y + if y = x then δ else 0) = as.map g :=
        List.map_congr_left fun y hy => by
          rw [if_neg (by rintro rfl; exact hnotin hy), add_zero]
      simp only [List.map_cons, List.sum_cons, hz]
      simp
      ring
    · have hax : a ≠ x := fun hax => (List.nodup_cons.mp hnd).1 (hax ▸ h)
      simp only [List.map_cons, List.sum_cons, if_neg hax, add_zero,
        ih h (List.nodup_cons.mp hnd).2]
      ring

lemma rate_sum_general (rates : List (String × ℚ)) (d c : String) :
    ∀ (ws : List (String × String × String × ℚ)) (cs : List String), cs.Nodup →
      (∀ w ∈ ws, w.1 ∈ cs) →
      (cs.map fun curr =>
        ((ws.filter fun w => w.1 == curr && w.2.1 == d && w.2.2.1 == c).map
          fun w => w.2.2.2).sum * rateLookup rates curr).sum =
      ((ws.filter fun w => w.2.1 == d && w.2.2.1 == c).map
        fun w => w.2.2.2 * rateLookup rates w.1).sum := by
  intro ws
  induction ws with
  | nil =>
    intro cs _ _
    simp [sum_map_zero]
  | cons w ws ih =>
    intro cs hnd hmem
    have hw1 : w.1 ∈ cs := hmem w (List.mem_cons_self w ws)
    have hmem' : ∀ v ∈ ws, v.1 ∈ cs := fun v hv => hmem v (List.mem_cons_of_mem w hv)
    by_cases hdc : w.2.1 = d ∧ w.2.2.1 = c
    · obtain ⟨h1, h2⟩ := hdc
      have hfun : (fun curr =>
          (((w :: ws).filter fun v => v.1 == curr && v.2.1 == d && v.2.2.1 == c).map
            fun v => v.2.2.2).sum * rateLookup rates curr) =
          fun curr =>
            (((ws.filter fun v => v.1 == curr && v.2.1 == d && v.2.2.1 == c).map
              fun v => v.2.2.2).sum * rateLookup rates curr) +
            (if curr = w.1 then w.2.2.2 * rateLookup rates w.1 else 0) := by
        funext curr
        by_cases hcu : w.1 = curr
        · have hL : ((w :: ws).filter fun v => v.1 == curr && v.2.1 == d && v.2.2.1 == c) =
              w :: (ws.filter fun v => v.1 == curr && v.2.1 == d && v.2.2.1 == c) := by
            simp [List.filter_cons, hcu, h1, h2]
          rw [hL, List.map_cons, List.sum_cons, if_pos hcu.symm]
          subst hcu
          ring
        · have hL : ((w :: ws).filter fun v => v.1 == curr && v.2.1 == d && v.2.2.1 == c) =
              ws.filter fun v => v.1 == curr && v.2.1 == d && v.2.2.1 == c := by
            simp [List.filter_cons, hcu]
          rw [hL, if_neg fun h => hcu h.symm, add_zero]
      have hR : ((w :: ws).filter fun v => v.2.1 == d && v.2.2.1 == c) =
          w :: (ws.filter fun v => v.2.1 == d && v.2.2.1 == c) := by
        simp [List.filter_cons, h1, h2]
      rw [hfun,
        sum_map_add_ite cs
          (fun curr =>
            (((ws.filter fun v => v.1 == curr && v.2.1 == d && v.2.2.1 == c).map
              fun v => v.2.2.2).sum * rateLookup rates curr))
          w.1 (w.2.2.2 * rateLookup rates w.1) hw1 hnd,
        ih cs hnd hmem', hR, List.map_cons, List.sum_cons]
      ring
    · have hfun : (fun curr =>
          (((w :: ws).filter fun v => v.1 == curr && v.2.1 == d && v.2.2.1 == c).map
            fun v => v.2.2.2).sum * rateLookup rates curr) =
          fun curr =>
            ((ws.filter fun v => v.1 == curr && v.2.1 == d && v.2.2.1 == c).map
              fun v => v.2.2.2).sum * rateLookup rates curr := by
        funext curr
        have hL : ((w :: ws).filter fun v => v.1 == curr && v.2.1 == d && v.2.2.1 == c) =
            ws.filter fun v => v.1 == curr && v.2.1 == d && v.2.2.1 == c := by
          simp only [List.filter_cons]
          rw [if_neg]
          intro h
          rw [Bool.and_eq_true, Bool.and_eq_true] at h
          exact hdc ⟨beq_iff_eq.mp h.1.2, beq_iff_eq.mp h.2⟩
        rw [hL]
      have hR : ((w :: ws).filter fun v => v.2.1 == d && v.2.2.1 == c) =
          ws.filter fun v => v.2.1 == d && v.2.2.1 == c := by
        simp only [List.filter_cons]
        rw [if_neg]
        intro h
        rw [Bool.and_eq_true] at h
        exact hdc ⟨beq_iff_eq.mp h.1, beq_iff_eq.mp h.2⟩
      rw [hfun, ih cs hnd hmem', hR]

lemma net_eq_writes (entries : List Entry) (rates : List (String × ℚ))
    (debtor creditor : String) :
    netTransfer entries rates debtor creditor = netViaWrites entries rates debtor creditor := by
  unfold netTransfer netViaWrites transfer
  exact rate_sum_general rates debtor creditor (aggWrites entries) (currencies entries)
    (List.nodup_dedup _)
    (fun w hw => List.mem_dedup.mpr (List.mem_map.mpr ⟨w, hw, rfl⟩))

lemma transfer_cons (e : Entry) (es : List Entry) (curr d c : String) :
    transfer (e :: es) curr d c = transfer [e] curr d c + transfer es curr d c := by
  unfold transfer aggWrites
  rw [List.flatMap_cons, List.flatMap_cons, List.flatMap_nil, List.append_nil,
    List.filter_append, List.map_append, List.sum_append]

lemma sum_single_entry (cu pay curr d c : String) (amt : ℚ) (l : List String) :
    ((((l.filter fun p => p != pay).map fun p => (cu, p, pay, amt)).filter
      fun w => w.1 == curr && w.2.1 == d && w.2.2.1 == c).map fun w => w.2.2.2).sum =
    if curr = cu ∧ c = pay ∧ d ≠ pay then (l.count d : ℚ) * amt else 0 := by
  rw [List.filter_map, List.map_map]
  have hcomp : ((fun w : String × String × String × ℚ => w.2.2.2) ∘
      fun p => (cu, p, pay, amt)) = fun _ : String => amt := rfl
  rw [hcomp]
  by_cases hC : curr = cu ∧ c = pay ∧ d ≠ pay
  · obtain ⟨hcu, hcp, hdp⟩ := hC
    have hpred : ((fun w : String × String × String × ℚ =>
        w.1 == curr && w.2.1 == d && w.2.2.1 == c) ∘ fun p => (cu, p, pay, amt)) =
        fun p => p == d := by
      funext p
      simp [hcu, hcp]
    rw [hpred, if_pos ⟨hcu, hcp, hdp⟩, List.map_const', List.sum_replicate,
      ← List.countP_eq_length_filter, nsmul_eq_mul]
    have hcount : List.countP (fun p => p == d) (l.filter fun p => p != pay) =
        (l.filter fun p => p != pay).count d := rfl
    rw [hcount, List.count_filter (by simp [bne_iff_ne]; exact hdp)]
  · rw [if_neg hC]
    have hnil : ((l.filter fun p => p != pay).filter
        ((fun w : String × String × String × ℚ =>
          w.1 == curr && w.2.1 == d && w.2.2.1 == c) ∘ fun p => (cu, p, pay, amt))) = [] := by
      rw [List.filter_eq_nil_iff]
      intro p hp hcond
      have hpne : p ≠ pay := bne_iff_ne.mp (List.mem_filter.mp hp).2
      rw [Function.comp_apply, Bool.and_eq_true, Bool.and_eq_true] at hcond
      exact hC ⟨(beq_iff_eq.mp hcond.1.1).symm, (beq_iff_eq.mp hcond.2).symm,
        fun hdpay => hpne ((beq_iff_eq.mp hcond.1.2).trans hdpay)⟩
    rw [hnil, List.map_nil, List.sum_nil]

lemma transfer_single (e : Entry) (curr d c : String) :
    transfer [e] curr d c = entryAdds e curr d c := by
  unfold transfer entryAdds aggWrites
  rw [List.flatMap_cons, List.flatMap_nil, List.append_nil]
  by_cases hn : e.share.length = 0
  · rw [if_pos hn]
    have hs : e.share = [] := List.length_eq_zero.mp hn
    simp [hs]
  · rw [if_neg hn]
    exact sum_single_entry e.currency e.payer curr d c (shareAmt e) e.share

lemma transfer_diag (es : List Entry) (curr p : String) : transfer es curr p p = 0 := by
  unfold transfer
  have hnil : ((aggWrites es).filter fun w => w.1 == curr && w.2.1 == p && w.2.2.1 == p) = [] := by
    rw [List.filter_eq_nil_iff]
    intro w hw hcond
    rw [Bool.and_eq_true, Bool.and_eq_true] at hcond
    exact aggWrites_no_self w hw
      ((beq_iff_eq.mp hcond.1.2).trans (beq_iff_eq.mp hcond.2).symm)
  rw [hnil, List.map_nil, List.sum_nil]

lemma netTransfer_diag (es : List Entry) (rs : List (String × ℚ)) (p : String) :
    netTransfer es rs p p = 0 := by
  unfold netTransfer
  have hz : ((currencies es).map fun curr => transfer es curr p p * rateLookup rs curr) =
      (currencies es).map fun _ => (0 : ℚ) :=
    List.map_congr_left fun curr _ => by rw [transfer_diag, zero_mul]
  rw [hz, sum_map_zero]

lemma eps_pos : (0 : ℚ) < eps := by norm_num [eps]

lemma netAmt_nil (rs : List (String × ℚ)) (d c : String) : netAmt [] rs d c = 0 := by
  simp [netAmt, netTransfer, currencies, aggWrites]

lemma transactions_nil_entries (ps : List String) (rs : List (String × ℚ)) :
    transactions ps [] rs = [] := by
  rw [List.eq_nil_iff_forall_not_mem]
  intro t ht
  obtain ⟨d, c, a⟩ := t
  have h := mem_transactions.mp ht
  have hlt := h.2.2.2.1
  rw [netAmt_nil] at hlt
  exact absurd (lt_trans eps_pos hlt) (lt_irrefl 0)

lemma reducedCells_nil_entries_zero (ps : List String) (rs : List (String × ℚ)) :
    ∀ cell ∈ reducedCells ps [] rs, cell.2 = 0 := by
  intro cell hcell
  obtain ⟨⟨d, c⟩, v⟩ := cell
  have h := mem_reducedCells.mp hcell
  rw [h.2.2.2, netAmt_nil, if_neg (fun hlt => absurd (lt_trans eps_pos hlt) (lt_irrefl 0))]

lemma rowSum_eq_zero {cells : List ((String × String) × ℚ)}
    (h : ∀ cell ∈ cells, cell.2 = 0) (debtor : String) : rowSum cells debtor = 0 := by
  unfold rowSum
  apply List.sum_eq_zero
  intro x hx
  rw [List.mem_map] at hx
  obtain ⟨cell, hcell, rfl⟩ := hx
  exact h cell (List.mem_of_mem_filter hcell)

lemma anyPosRow_nil_entries (ps : List String) (rs : List (String × ℚ)) :
    anyPosRow ps [] rs = false := by
  unfold anyPosRow
  rw [List.any_eq_false]
  intro debtor _
  simp only [decide_eq_true_eq]
  rw [rowSum_eq_zero (reducedCells_nil_entries_zero ps rs) debtor]
  exact fun hlt => absurd (lt_trans eps_pos hlt) (lt_irrefl 0)

/-! ### Claim theorems -/

/-- C1: the netting loop runs over the lexicographically sorted participant
list; for an ordered pair (i, j) of distinct participants it computes
`net = matrix[i][j] - matrix[j][i]`, records the transfer `(i, j, net)` and
writes the dense cell `[i][j] = net` exactly when `net > 1e-9`, writing 0
otherwise; hence every emitted transfer amount is strictly above `1e-9`. -/
theorem netting_pair_rule (ps : List String) (es : List Entry) (rs : List (String × ℚ))
    (d c : String) (hd : d ∈ peopleList ps es) (hc : c ∈ peopleList ps es) (hne : d ≠ c) :
    (peopleList ps es).Sorted (fun a b => a ≤ b) ∧
    netAmt es rs d c = netTransfer es rs d c - netTransfer es rs c d ∧
    reducedMatrix ps es rs d c =
      (if eps < netAmt es rs d c then netAmt es rs d c else 0) ∧
    ((d, c, netAmt es rs d c) ∈ transactions ps es rs ↔ eps < netAmt es rs d c) ∧
    (∀ t ∈ transactions ps es rs, eps < t.2.2) := by
  refine ⟨List.sorted_insertionSort _ _, rfl, reducedMatrix_eq hd hc hne, ?_, ?_⟩
  · constructor
    · intro h
      exact (mem_transactions.mp h).2.2.2.1
    · intro h
      exact mem_transactions.mpr ⟨hd, hc, hne, h, rfl⟩
  · intro t ht
    obtain ⟨d', c', a'⟩ := t
    have h := mem_transactions.mp ht
    rw [h.2.2.2.2]
    exact h.2.2.2.1

/-- Witness for C1 at scenario A: Alice paid 100 shared by Alice and Bob, so
the dense cell for (Bob, Alice) holds the net amount 50. -/
theorem netting_pair_rule_witness :
    reducedMatrix ["Alice", "Bob"] [⟨"Alice", "GBP", 100, ["Alice", "Bob"]⟩] [("GBP", 1)]
      "Bob" "Alice" = 50 := by
  have hmB : ("Bob" : String) ∈
      peopleList ["Alice", "Bob"] [⟨"Alice", "GBP", 100, ["Alice", "Bob"]⟩] :=
    mem_peopleList.mpr (Or.inl (by decide))
  have hmA : ("Alice" : String) ∈
      peopleList ["Alice", "Bob"] [⟨"Alice", "GBP", 100, ["Alice", "Bob"]⟩] :=
    mem_peopleList.mpr (Or.inl (by decide))
  have h := netting_pair_rule ["Alice", "Bob"] [⟨"Alice", "GBP", 100, ["Alice", "Bob"]⟩]
    [("GBP", 1)] "Bob" "Alice" hmB hmA (by decide)
  rw [h.2.2.1]
  have hnet : netAmt [⟨"Alice", "GBP", 100, ["Alice", "Bob"]⟩] [("GBP", 1)]
      "Bob" "Alice" = 50 := by
    simp +decide [netAmt, netTransfer, currencies, rateLookup, transfer, aggWrites, shareAmt]
    norm_num
  rw [hnet, if_pos (by norm_num [eps])]

/-- C2: the per-currency matrix value is the sum over the entries of
`share = amount / n` once per occurrence of the debtor among the sharers
(skipping the payer as a debtor), and an entry with an empty share list is
skipped without error and contributes nothing. -/
theorem aggregate_entry_sum (es : List Entry) (curr d c : String) :
    transfer es curr d c = (es.map fun e => entryAdds e curr d c).sum ∧
    (∀ e : Entry, e.share = [] → aggWrites [e] = [] ∧ entryAdds e curr d c = 0) := by
  constructor
  · induction es with
    | nil => simp [transfer, aggWrites]
    | cons e es ih => rw [transfer_cons, transfer_single, List.map_cons, List.sum_cons, ih]
  · intro e he
    constructor
    · unfold aggWrites
      rw [List.flatMap_cons, List.flatMap_nil, List.append_nil, if_pos (by rw [he]; rfl)]
    · unfold entryAdds
      rw [he]
      simp

/-- C3 counterexample: with CHF absent from the rate table, normalization does
not fail: it produces the unified matrix with the silent default factor 1
(the entry of 100 CHF lands as 100), refuting "fails with a MissingRate error
rather than producing a unified base-currency matrix". -/
theorem missing_rate_counterexample :
    (([("GBP", (1 : ℚ))].find? fun r => r.1 == "CHF") = none) ∧
    netTransfer [⟨"Alice", "CHF", 100, ["Bob"]⟩] [("GBP", 1)] "Bob" "Alice" = 100 := by
  constructor
  · rfl
  · simp +decide [netTransfer, currencies, rateLookup, transfer, aggWrites, shareAmt]

/-- C3 (amended): a currency missing from the rate table does not make
normalization fail; the lookup silently falls back to the factor 1. -/
theorem missing_rate_defaults_to_one (rs : List (String × ℚ)) (curr : String)
    (h : (rs.find? fun r => r.1 == curr) = none) : rateLookup rs curr = 1 := by
  unfold rateLookup
  rw [h]
  rfl

/-- Witness for the amended C3: CHF is missing from a GBP-only table and the
lookup yields the default factor 1. -/
theorem missing_rate_defaults_to_one_witness : rateLookup [("GBP", 1)] "CHF" = 1 :=
  missing_rate_defaults_to_one [("GBP", 1)] "CHF" rfl

/-- C4 counterexample: a row with amount -50 parses, is accepted by on_submit,
and contributes -50 to the per-currency matrix, refuting "amount ≤ 0 ...
rejected and contributes nothing to any matrix". -/
theorem negative_amount_contributes :
    ((-50 : ℚ) ≤ 0) ∧
    submitEntries [⟨"Alice", "GBP", some (-50), ["Bob"]⟩] =
      [⟨"Alice", "GBP", -50, ["Bob"]⟩] ∧
    transfer (submitEntries [⟨"Alice", "GBP", some (-50), ["Bob"]⟩]) "GBP" "Bob" "Alice" = -50 ∧
    ((-50 : ℚ) ≠ 0) := by
  refine ⟨by norm_num, by simp [submitEntries], ?_, by norm_num⟩
  simp +decide [submitEntries, transfer, aggWrites, shareAmt]

/-- C4 (amended): on_submit rejects exactly the rows whose amount fails to
parse; a row with any parseable amount, non-positive included, is turned into
an entry with no further validation. -/
theorem submit_amount_rule (r : RawRow) (rows : List RawRow) :
    (r.amountParse = none → submitEntries (r :: rows) = submitEntries rows) ∧
    (∀ a : ℚ, r.amountParse = some a →
      submitEntries (r :: rows) =
        { payer := r.payer, currency := r.currency, amount := a, share := r.share } ::
          submitEntries rows) := by
  constructor
  · intro h
    simp [submitEntries, List.filterMap_cons, h]
  · intro a h
    simp [submitEntries, List.filterMap_cons, h]

/-- C5: normalization multiplies every aggregation update by its own
currency's rate factor and accumulates it at the same (debtor, creditor) key;
in particular an entry of amount 100 in a currency with rate factor 1/2
contributes exactly 50 base-currency units. -/
theorem normalize_scales_each_write :
    (∀ (es : List Entry) (rs : List (String × ℚ)) (d c : String),
      netTransfer es rs d c = netViaWrites es rs d c) ∧
    netTransfer [⟨"Alice", "EUR", 100, ["Bob"]⟩] [("EUR", 1/2)] "Bob" "Alice" = 50 := by
  constructor
  · exact net_eq_writes
  · simp +decide [netTransfer, currencies, rateLookup, transfer, aggWrites, shareAmt]
    norm_num

/-- C6: for an entry with a non-empty share list the per-sharer owed amounts
(`amount / n`, once per sharer) sum to the original entry amount. -/
theorem share_sum_conservation (e : Entry) (h : e.share ≠ []) :
    (e.share.map fun _ => shareAmt e).sum = e.amount := by
  rw [List.map_const', List.sum_replicate, nsmul_eq_mul, shareAmt]
  have hn : (e.share.length : ℚ) ≠ 0 := by
    rw [Nat.cast_ne_zero]
    exact fun h0 => h (List.length_eq_zero.mp h0)
  rw [mul_comm, div_mul_cancel₀ _ hn]

/-- Witness for C6: 100 split over two sharers sums back to 100. -/
theorem share_sum_conservation_witness :
    ((["Alice", "Bob"] : List String).map
      fun _ => shareAmt ⟨"Alice", "GBP", 100, ["Alice", "Bob"]⟩).sum = 100 :=
  share_sum_conservation ⟨"Alice", "GBP", 100, ["Alice", "Bob"]⟩ (by decide)

/-- C7: no stage produces a self-edge: aggregation updates never have
debtor = creditor, per-currency and unified matrices are zero on the
diagonal, and no transfer or dense cell pairs a person with themselves. -/
theorem no_self_edges (ps : List String) (es : List Entry) (rs : List (String × ℚ)) :
    (∀ w ∈ aggWrites es, w.2.1 ≠ w.2.2.1) ∧
    (∀ curr p, transfer es curr p p = 0) ∧
    (∀ p, netTransfer es rs p p = 0) ∧
    (∀ t ∈ transactions ps es rs, t.1 ≠ t.2.1) ∧
    (∀ cell ∈ reducedCells ps es rs, cell.1.1 ≠ cell.1.2) := by
  refine ⟨aggWrites_no_self, fun curr p => transfer_diag es curr p,
    fun p => netTransfer_diag es rs p, ?_, ?_⟩
  · intro t ht
    obtain ⟨d, c, a⟩ := t
    exact (mem_transactions.mp ht).2.2.1
  · intro cell hcell
    obtain ⟨⟨d, c⟩, v⟩ := cell
    exact (mem_reducedCells.mp hcell).2.2.1

/-- C8: the settlement pipeline is a pure function of entries, participants
and the rate table: identical inputs give identical dense matrices, transfer
lists and result shapes. -/
theorem settlement_deterministic (ps₁ ps₂ : List String) (es₁ es₂ : List Entry)
    (rs₁ rs₂ : List (String × ℚ)) (hp : ps₁ = ps₂) (he : es₁ = es₂) (hr : rs₁ = rs₂) :
    reducedCells ps₁ es₁ rs₁ = reducedCells ps₂ es₂ rs₂ ∧
    (∀ d c, reducedMatrix ps₁ es₁ rs₁ d c = reducedMatrix ps₂ es₂ rs₂ d c) ∧
    transactions ps₁ es₁ rs₁ = transactions ps₂ es₂ rs₂ ∧
    resultStatus ps₁ es₁ rs₁ = resultStatus ps₂ es₂ rs₂ := by
  subst hp
  subst he
  subst hr
  exact ⟨rfl, fun d c => rfl, rfl, rfl⟩

/-- Witness for C8 at a concrete input. -/
theorem settlement_deterministic_witness :
    reducedCells ["Alice"] [] [] = reducedCells ["Alice"] [] [] ∧
    (∀ d c, reducedMatrix ["Alice"] [] [] d c = reducedMatrix ["Alice"] [] [] d c) ∧
    transactions ["Alice"] [] [] = transactions ["Alice"] [] [] ∧
    resultStatus ["Alice"] [] [] = resultStatus ["Alice"] [] [] :=
  settlement_deterministic ["Alice"] ["Alice"] [] [] [] [] rfl rfl rfl

/-- C9 counterexample: zero registered participants with one entry still
yields a non-empty transfer list (sharers become participants), refuting
"zero participants or zero entries yields an empty transfer list". -/
theorem zero_participants_counterexample :
    transactions [] [⟨"Alice", "GBP", 100, ["Alice", "Bob"]⟩] [("GBP", 1)] =
      [("Bob", "Alice", 50)] ∧
    transactions [] [⟨"Alice", "GBP", 100, ["Alice", "Bob"]⟩] [("GBP", 1)] ≠ [] := by
  have heval : transactions [] [⟨"Alice", "GBP", 100, ["Alice", "Bob"]⟩] [("GBP", 1)] =
      [("Bob", "Alice", 50)] := by
    have hAB : ("Alice" : String) ≤ "Bob" := by
      rw [String.le_iff_toList_le]
      decide
    simp +decide [transactions, peopleList, allPeople, List.insertionSort,
      List.orderedInsert, hAB, netAmt, netTransfer, currencies, rateLookup, transfer,
      aggWrites, shareAmt, eps, List.filterMap_cons, List.filterMap_nil]
    norm_num
  exact ⟨heval, by rw [heval]; exact fun h => List.cons_ne_nil _ _ h⟩

/-- C9 (amended): with zero entries the computation does not fail: the
transfer list is empty and the result is the explicit no-data indicator,
whatever the registered participants. -/
theorem empty_entries_settled (ps : List String) (rs : List (String × ℚ)) :
    transactions ps [] rs = [] ∧ resultStatus ps [] rs = ResultStatus.noData := by
  refine ⟨transactions_nil_entries ps rs, ?_⟩
  unfold resultStatus
  rw [if_pos ⟨transactions_nil_entries ps rs, anyPosRow_nil_entries ps rs⟩]

/-- C10: a payer who is neither registered nor a member of any share list is
absent from the sorted participant list, so the transfer list and the dense
matrix omit them entirely and anything owed to them is dropped. -/
theorem unlisted_payer_dropped (ps : List String) (es : List Entry)
    (rs : List (String × ℚ)) (q : String) (_hpayer : ∃ e ∈ es, e.payer = q)
    (hq1 : q ∉ ps) (hq2 : ∀ e ∈ es, q ∉ e.share) :
    q ∉ peopleList ps es ∧
    (∀ t ∈ transactions ps es rs, t.1 ≠ q ∧ t.2.1 ≠ q) ∧
    (∀ cell ∈ reducedCells ps es rs, cell.1.1 ≠ q ∧ cell.1.2 ≠ q) := by
  have hnot : q ∉ peopleList ps es := by
    rw [mem_peopleList]
    rintro (h | ⟨e, he, hs⟩)
    · exact hq1 h
    · exact hq2 e he hs
  refine ⟨hnot, ?_, ?_⟩
  · intro t ht
    obtain ⟨d, c, a⟩ := t
    have h := mem_transactions.mp ht
    exact ⟨fun hdq => hnot (hdq ▸ h.1), fun hcq => hnot (hcq ▸ h.2.1)⟩
  · intro cell hcell
    obtain ⟨⟨d, c⟩, v⟩ := cell
    have h := mem_reducedCells.mp hcell
    exact ⟨fun hdq => hnot (hdq ▸ h.1), fun hcq => hnot (hcq ▸ h.2.1)⟩

/-- Witness for C10: Alice pays 100 shared by Bob alone and is not registered;
Alice is dropped from the participant list although the matrix owes her 100. -/
theorem unlisted_payer_dropped_witness :
    ("Alice" : String) ∉ peopleList [] [⟨"Alice", "GBP", 100, ["Bob"]⟩] ∧
    netTransfer [⟨"Alice", "GBP", 100, ["Bob"]⟩] [("GBP", 1)] "Bob" "Alice" = 100 := by
  constructor
  · exact (unlisted_payer_dropped [] [⟨"Alice", "GBP", 100, ["Bob"]⟩] [("GBP", 1)] "Alice"
      ⟨⟨"Alice", "GBP", 100, ["Bob"]⟩, List.mem_cons_self _ _, rfl⟩
      (by decide) (by decide)).1
  · simp +decide [netTransfer, currencies, rateLookup, transfer, aggWrites, shareAmt]

end EasySplit
